import Mathlib

/-!
Verification of the PLONK transpiler in src/plonk/adaptor/alternative.rs.

The transpiler walks an R1CS circuit, classifies each constraint A * B = C by
the constant-ness of its three linear combinations, and records a hint
describing which gate shape the constraint was rewritten into.  We embed the
state machine shallowly: the field becomes an arbitrary commutative ring with
decidable equality, linear combinations become term lists, the scratch hash
set becomes a duplicate-free list, and assertion failures (Rust panics)
become the value none.
-/

namespace PlonkAdaptor

/-- A bellman constraint-system variable: a role tag plus an index. -/
inductive Variable where
  | Input : Nat → Variable
  | Aux : Nat → Variable
deriving DecidableEq, Repr

/-- The distinguished constant-one variable, CS::one() = Input(1). -/
def cs_one : Variable := Variable.Input 1

/-- A linear combination: an ordered list of (variable, coefficient) terms. -/
abbrev LinearCombination (F : Type) := List (Variable × F)

/-- The tagged union of transpilation hints (TranspilationVariant in the
source; the Quandatic spelling is the source's). -/
inductive TranspilationVariant (F : Type) where
  | NoOp : TranspilationVariant F
  | IntoQuandaticGate : F → F → F → TranspilationVariant F
  | IntoLinearGate : F → F → TranspilationVariant F
  | IntoSingleAdditionGate : F → F → F → F → TranspilationVariant F
  | IntoMultipleAdditionGates : F → F → F → F → List F → TranspilationVariant F
  | IsConstant : F → TranspilationVariant F
  | TransformLc : TranspilationVariant F → TranspilationVariant F →
      TranspilationVariant F → TranspilationVariant F
deriving DecidableEq

/-- The transpiler state (struct Transpiler in the source). -/
structure Transpiler (F : Type) where
  current_constraint_index : Nat
  current_plonk_input_idx : Nat
  current_plonk_aux_idx : Nat
  scratch : List Variable
  hints : List (Nat × TranspilationVariant F)
deriving DecidableEq

/-- Transpiler::new(). -/
def Transpiler.new (F : Type) : Transpiler F :=
  { current_constraint_index := 0
    current_plonk_input_idx := 1
    current_plonk_aux_idx := 0
    scratch := []
    hints := [] }

/-- ConstraintSystem::alloc for the transpiler: bump the auxiliary counter and
hand out Aux(new counter). -/
def Transpiler.alloc {F : Type} (st : Transpiler F) : Variable × Transpiler F :=
  (Variable.Aux (st.current_plonk_aux_idx + 1),
   { st with current_plonk_aux_idx := st.current_plonk_aux_idx + 1 })

variable {F : Type} [CommRing F] [DecidableEq F]

/-- get_constant_term: first coefficient attached to the One variable, or
(true, 0) for the empty combination, else (false, 0). -/
def get_constant_term (lc : LinearCombination F) : Bool × F :=
  if lc.length = 0 then (true, 0)
  else
    match lc.find? (fun t => t.1 = cs_one) with
    | some t => (true, t.2)
    | none => (false, 0)

/-- is_constant: the combination has a constant term and at most one term. -/
def is_constant (lc : LinearCombination F) : Bool × F :=
  let result := get_constant_term lc
  if result.1 = true ∧ lc.length ≤ 1 then result else (false, 0)

/-- HashSet::insert on the scratch set, modelled on duplicate-free lists. -/
def insertScratch (s : List Variable) (v : Variable) : List Variable :=
  if v ∈ s then s else v :: s

/-- The loop of num_unique_values: insert every non-One variable into the
scratch set and record the constant flag.  The flag starts out true in the
source and is set to true again on a One term, so it can never become false. -/
def numUniqueLoop (terms : List (Variable × F)) (cc : Bool) (s : List Variable) :
    Bool × List Variable :=
  match terms with
  | [] => (cc, s)
  | (v, _) :: rest =>
    if v ≠ cs_one then numUniqueLoop rest cc (insertScratch s v)
    else numUniqueLoop rest true s

/-- num_unique_values: constant flag plus the number of distinct non-One
variables; the scratch set is cleared before returning. -/
def num_unique_values (lc : LinearCombination F) (scratch : List Variable) :
    (Bool × Nat) × List Variable :=
  let r := numUniqueLoop lc true scratch
  ((r.1, r.2.length), [])

/-- The loop of is_linear_term: collect non-One variables in the scratch set
and keep the last-seen non-One coefficient. -/
def linearLoop (terms : List (Variable × F)) (s : List Variable) (coeff : F) :
    List Variable × F :=
  match terms with
  | [] => (s, coeff)
  | (v, c) :: rest =>
    if v ≠ cs_one then linearLoop rest (insertScratch s v) c
    else linearLoop rest s coeff

/-- is_linear_term: succeeds when exactly one distinct non-One variable
occurs, returning that variable and the last-seen coefficient; the scratch
set is drained or cleared in both branches. -/
def is_linear_term (lc : LinearCombination F) (scratch : List Variable) :
    (Bool × Variable × F) × List Variable :=
  let r := linearLoop lc scratch 0
  if r.1.length = 1 then ((true, r.1.headD cs_one, r.2), [])
  else ((false, cs_one, 0), [])

/-- is_quadratic_gate: matches (a1 v + a0) * (b1 v + b0) = c0 with a shared
single variable v and constant terms on both factors, emitting the constant,
linear and quadratic coefficients of the expanded identity. -/
def is_quadratic_gate (a b c : LinearCombination F) (scratch : List Variable) :
    (Bool × (F × F × F)) × List Variable :=
  let ccr := is_constant c
  if ccr.1 = false then ((false, (0, 0, 0)), scratch)
  else
    let acr := get_constant_term a
    let bcr := get_constant_term b
    let alr := is_linear_term a scratch
    let blr := is_linear_term b alr.2
    if acr.1 = true ∧ alr.1.1 = true ∧ bcr.1 = true ∧ blr.1.1 = true ∧
        alr.1.2.1 = blr.1.2.1 then
      let quadratic_term := alr.1.2.2 * blr.1.2.2
      let linear_term := acr.2 * blr.1.2.2 + bcr.2 * alr.1.2.2
      let constant_term := acr.2 * bcr.2
      let constant_term := if ccr.2 ≠ 0 then constant_term - ccr.2 else constant_term
      ((true, (constant_term, linear_term, quadratic_term)), blr.2)
    else ((false, (0, 0, 0)), blr.2)

/-- The loop of rewrite_lc_into_single_addition_gate: the constant slot takes
the last One coefficient, the a slot the first non-One coefficient, the b
slot every later non-One coefficient (so the last one wins). -/
def singleGateLoop (terms : List (Variable × F)) (k : F) (found_a : Bool) (a b : F) :
    F × Bool × F × F :=
  match terms with
  | [] => (k, found_a, a, b)
  | (v, c) :: rest =>
    if v = cs_one then singleGateLoop rest c found_a a b
    else
      if found_a then singleGateLoop rest k found_a a c
      else singleGateLoop rest k true c b

/-- rewrite_lc_into_single_addition_gate: mints one auxiliary variable and
returns it with the gate coefficients (a, b, -1, constant).  The assert on
the distinct-variable count is modelled by returning none on violation. -/
def rewrite_lc_into_single_addition_gate (lc : LinearCombination F) (st : Transpiler F) :
    Option ((Variable × (F × F × F × F)) × Transpiler F) :=
  let nuv := num_unique_values lc st.scratch
  if 0 < nuv.1.2 ∧ nuv.1.2 ≤ 2 then
    let st1 := { st with scratch := nuv.2 }
    let r := singleGateLoop lc 0 false 0 0
    let c_coeff : F := -1
    let ar := st1.alloc
    some ((ar.1, (r.2.2.1, r.2.2.2, c_coeff, r.1)), ar.2)
  else none

/-- The first loop of rewrite_lc_into_multiple_addition_gates: consume terms
until the second non-One term has been seen, then break, returning the two
captured coefficients and the unconsumed remainder of the iterator. -/
def multiFirstLoop (terms : List (Variable × F)) (found_a : Bool) (a b : F) :
    F × F × List (Variable × F) :=
  match terms with
  | [] => (a, b, [])
  | (v, c) :: rest =>
    if v ≠ cs_one then
      if found_a then (a, c, rest)
      else multiFirstLoop rest true c b
    else multiFirstLoop rest found_a a b

/-- The second loop of rewrite_lc_into_multiple_addition_gates: one extra
coefficient and one freshly minted variable per remaining non-One term. -/
def multiRestLoop (terms : List (Variable × F)) (st : Transpiler F)
    (extra : List F) (nv : Variable) : List F × Variable × Transpiler F :=
  match terms with
  | [] => (extra, nv, st)
  | (v, c) :: rest =>
    if v ≠ cs_one then
      let ar := st.alloc
      multiRestLoop rest ar.2 (extra ++ [c]) ar.1
    else multiRestLoop rest st extra nv

/-- rewrite_lc_into_multiple_addition_gates.  The source asserts
num_linear_terms > 0 && num_linear_terms <= 2 here even though its only call
site reaches it exactly when the count exceeds 2; the assert is kept as
written and modelled as none on violation, as is the assert len > 2. -/
def rewrite_lc_into_multiple_addition_gates (lc : LinearCombination F) (st : Transpiler F) :
    Option ((Variable × (F × F × F × F) × List F) × Transpiler F) :=
  let nuv := num_unique_values lc st.scratch
  if 0 < nuv.1.2 ∧ nuv.1.2 ≤ 2 then
    if 2 < lc.length then
      let st1 := { st with scratch := nuv.2 }
      let constant_term := (get_constant_term lc).2
      let fl := multiFirstLoop lc false 0 0
      let c_coeff : F := -1
      let ar := st1.alloc
      let first_gate := (fl.1, fl.2.1, c_coeff, constant_term)
      let rl := multiRestLoop fl.2.2 ar.2 [] ar.1
      some ((rl.2.1, first_gate, rl.1), rl.2.2)
    else none
  else none

/-- Transpiler::rewrite_lc: dispatch on the distinct-variable count, then
scale the produced coefficients by the multiplier (skipped entirely when the
multiplier is zero) and subtract the free term from the constant slot.  The
asserts (count > 0, and free term zero whenever the multiplier is zero)
are modelled as none. -/
def rewrite_lc (st : Transpiler F) (lc : LinearCombination F)
    (multiplier free_term_constant : F) :
    Option ((Variable × TranspilationVariant F) × Transpiler F) :=
  let nuv := num_unique_values lc st.scratch
  let st0 : Transpiler F := { st with scratch := nuv.2 }
  if 0 < nuv.1.2 then
    if nuv.1.2 ≤ 2 then
      match rewrite_lc_into_single_addition_gate lc st0 with
      | none => none
      | some ((new_var, co), st1) =>
        if multiplier = 0 then
          if free_term_constant = 0 then
            some ((new_var,
              TranspilationVariant.IntoSingleAdditionGate co.1 co.2.1 co.2.2.1 co.2.2.2), st1)
          else none
        else
          let co1 := if multiplier ≠ 1 then
              (co.1 * multiplier, co.2.1 * multiplier,
               co.2.2.1 * multiplier, co.2.2.2 * multiplier)
            else co
          some ((new_var,
            TranspilationVariant.IntoSingleAdditionGate co1.1 co1.2.1 co1.2.2.1
              (co1.2.2.2 - free_term_constant)), st1)
    else
      match rewrite_lc_into_multiple_addition_gates lc st0 with
      | none => none
      | some ((new_var, co, extra), st1) =>
        if multiplier = 0 then
          if free_term_constant = 0 then
            some ((new_var,
              TranspilationVariant.IntoMultipleAdditionGates co.1 co.2.1 co.2.2.1 co.2.2.2
                extra), st1)
          else none
        else
          let co1 := if multiplier ≠ 1 then
              (co.1 * multiplier, co.2.1 * multiplier,
               co.2.2.1 * multiplier, co.2.2.2 * multiplier)
            else co
          let extra1 := if multiplier ≠ 1 then extra.map (fun x => x * multiplier) else extra
          some ((new_var,
            TranspilationVariant.IntoMultipleAdditionGates co1.1 co1.2.1 co1.2.2.1
              (co1.2.2.2 - free_term_constant) extra1), st1)
  else none

/-- Transpiler::enforce: classify the constraint by the constant-ness of
A, B, C and dispatch.  The all-constant arm is the source's unreachable!
panic, modelled as none.  The source's match has no arm at all for
(true, true, false); that shape is likewise modelled as none. -/
def enforce (st : Transpiler F) (a b c : LinearCombination F) : Option (Transpiler F) :=
  let acr := is_constant a
  let bcr := is_constant b
  let ccr := is_constant c
  match acr.1, bcr.1, ccr.1 with
  | true, true, true => none
  | true, false, true =>
    match rewrite_lc st b acr.2 ccr.2 with
    | none => none
    | some (r, st1) =>
      let n := st1.current_constraint_index
      some { st1 with current_constraint_index := n + 1, hints := st1.hints ++ [(n, r.2)] }
  | false, true, true =>
    match rewrite_lc st a bcr.2 ccr.2 with
    | none => none
    | some (r, st1) =>
      let n := st1.current_constraint_index
      some { st1 with current_constraint_index := n + 1, hints := st1.hints ++ [(n, r.2)] }
  | false, false, true =>
    let q := is_quadratic_gate a b c st.scratch
    let st1 : Transpiler F := { st with scratch := q.2 }
    if q.1.1 then
      let n := st1.current_constraint_index
      some { st1 with
        current_constraint_index := n + 1
        hints := st1.hints ++
          [(n, TranspilationVariant.IntoQuandaticGate q.1.2.1 q.1.2.2.1 q.1.2.2.2)] }
    else some st1
  | true, false, false => some st
  | false, true, false => some st
  | true, true, false => none
  | false, false, false =>
    match rewrite_lc st a 1 0 with
    | none => none
    | some (ra, st1) =>
      match rewrite_lc st1 b 1 0 with
      | none => none
      | some (rb, st2) =>
        match rewrite_lc st2 c 1 0 with
        | none => none
        | some (rc, st3) =>
          let n := st3.current_constraint_index
          some { st3 with
            current_constraint_index := n + 1
            hints := st3.hints ++ [(n, TranspilationVariant.TransformLc ra.2 rb.2 rc.2)] }

/-- Variables of the non-One terms of a combination, in iteration order. -/
def nonOneVars (lc : LinearCombination F) : List Variable :=
  (lc.filter (fun t => t.1 ≠ cs_one)).map Prod.fst

/-- Coefficients of the non-One terms of a combination, in iteration order. -/
def nonOneCoeffs (lc : LinearCombination F) : List F :=
  (lc.filter (fun t => t.1 ≠ cs_one)).map Prod.snd

/-- Coefficients of the One terms of a combination, in iteration order. -/
def oneCoeffs (lc : LinearCombination F) : List F :=
  (lc.filter (fun t => t.1 = cs_one)).map Prod.snd

/-- The coefficient of the (under de-duplication, unique) One term, or 0. -/
def oneCoeff (lc : LinearCombination F) : F :=
  (oneCoeffs lc).getLastD 0

/-- Modelled from the spec's scaling property for rewrite_lc: every
coefficient of an addition-gate hint is multiplied by m and the constant
slot is further reduced by f. -/
def scaleVariant (m f : F) : TranspilationVariant F → TranspilationVariant F
  | TranspilationVariant.IntoSingleAdditionGate a b c k =>
    TranspilationVariant.IntoSingleAdditionGate (m * a) (m * b) (m * c) (m * k - f)
  | TranspilationVariant.IntoMultipleAdditionGates a b c k extra =>
    TranspilationVariant.IntoMultipleAdditionGates (m * a) (m * b) (m * c) (m * k - f)
      (extra.map (fun x => m * x))
  | v => v

/-- The hint-stream indexing invariant: the constraint counter equals the
number of hints and the recorded indices are 0, 1, 2, ... in push order. -/
def hintIndicesOk (st : Transpiler F) : Prop :=
  st.current_constraint_index = st.hints.length ∧
  st.hints.map Prod.fst = List.range st.hints.length

/-- C1: the claim says rewrite_lc_into_multiple_addition_gates succeeds on
every combination with more than two distinct non-One variables; the
function instead asserts that the count is at most 2, so it fails (panics)
on every input that meets the claimed precondition. -/
theorem multiple_addition_gates_assert_always_fails (st : Transpiler F)
    (lc : LinearCombination F) (hs : st.scratch = [])
    (hk : 2 < (num_unique_values lc ([] : List Variable)).1.2) :
    rewrite_lc_into_multiple_addition_gates lc st = none := by
  unfold rewrite_lc_into_multiple_addition_gates
  rw [hs]
  have hneg : ¬(0 < (num_unique_values lc ([] : List Variable)).1.2 ∧
      (num_unique_values lc ([] : List Variable)).1.2 ≤ 2) := by omega
  exact if_neg hneg

theorem multiple_addition_gates_assert_always_fails_witness :
    rewrite_lc_into_multiple_addition_gates
      [(Variable.Aux 1, (1 : ℤ)), (Variable.Aux 2, 1), (Variable.Aux 3, 1)]
      (Transpiler.new ℤ) = none :=
  multiple_addition_gates_assert_always_fails (Transpiler.new ℤ)
    [(Variable.Aux 1, (1 : ℤ)), (Variable.Aux 2, 1), (Variable.Aux 3, 1)] rfl (by decide)

/-- C2: num_unique_values initialises its constant flag to true and only
ever assigns true to it, so it reports a constant term even for a
combination with no One term at all: on the single-term combination
1 * Aux(1), which contains no One term, it still returns the flag true. -/
theorem num_unique_values_constant_flag_always_true :
    ([(Variable.Aux 1, (1 : ℤ))] : LinearCombination ℤ).all
      (fun t => decide (t.1 ≠ cs_one)) = true ∧
    num_unique_values [(Variable.Aux 1, (1 : ℤ))] [] = ((true, 1), []) := by
  decide

/-- C3 counterexample: for A = 2x + 1, B = 1, C = 2x + 1 the classifier
lands in the arm for one constant side with a non-constant C, which is a
no-op: the state is returned unchanged, so no hint is appended and no
variable is minted, contrary to the claimed single-addition-gate hint. -/
theorem enforce_one_constant_scenario_counterexample :
    enforce (Transpiler.new ℤ)
      [(Variable.Aux 1, 2), (cs_one, 1)] [(cs_one, 1)] [(Variable.Aux 1, 2), (cs_one, 1)]
      = some (Transpiler.new ℤ) := by decide

/-- C3 amended: on the constraint A = 2x + 1, B = 1, C = 2x + 1 the
classifier takes the no-op arm for (exactly one of A, B constant, C not
constant) and leaves the transpiler state unchanged: no hint is appended
and no auxiliary variable is minted. -/
theorem enforce_one_constant_scenario_noop (st : Transpiler ℤ) :
    enforce st
      [(Variable.Aux 1, 2), (cs_one, 1)] [(cs_one, 1)] [(Variable.Aux 1, 2), (cs_one, 1)]
      = some st := rfl

/-- C7: a constraint whose three linear combinations are all bare constants
hits the unreachable! arm: the whole pass dies regardless of whether the
constants satisfy A * B = C, and no hint is appended. -/
theorem enforce_all_constant_fatal (st : Transpiler F) (a b c : LinearCombination F)
    (ha : (is_constant a).1 = true) (hb : (is_constant b).1 = true)
    (hc : (is_constant c).1 = true) : enforce st a b c = none := by
  simp only [enforce, ha, hb, hc]

theorem enforce_all_constant_fatal_witness :
    enforce (Transpiler.new ℤ) [(cs_one, 1)] [(cs_one, 1)] [(cs_one, 1)] = none :=
  enforce_all_constant_fatal (Transpiler.new ℤ) [(cs_one, 1)] [(cs_one, 1)] [(cs_one, 1)]
    (by decide) (by decide) (by decide)

/-- C8: with a zero multiplier and a nonzero free term, rewrite_lc always
dies on an assert.  The completes-normally half of the claim fails, however:
with zero multiplier and zero free term on a combination of three distinct
variables, rewrite_lc still dies, because the chain rewriter's own
(mis-stated) precondition assert rejects every combination it is actually
called on. -/
theorem rewrite_lc_zero_multiplier_assert (st : Transpiler F)
    (lc : LinearCombination F) (f : F) :
    (f ≠ 0 → rewrite_lc st lc 0 f = none) ∧
    rewrite_lc (Transpiler.new ℤ)
      [(Variable.Aux 1, (1 : ℤ)), (Variable.Aux 2, 1), (Variable.Aux 3, 1)] 0 0 = none := by
  constructor
  · intro hf
    unfold rewrite_lc
    simp [hf]
    intro hpos
    split <;> split <;> rfl
  · decide

theorem rewrite_lc_zero_multiplier_assert_witness :
    rewrite_lc (Transpiler.new ℤ) [(Variable.Aux 1, (1 : ℤ))] 0 5 = none :=
  (rewrite_lc_zero_multiplier_assert (Transpiler.new ℤ)
    [(Variable.Aux 1, (1 : ℤ))] 5).1 (by decide)

/-- C5 counterexample: with multiplier 0 and free term 0 the scaling step is
skipped entirely, so rewrite_lc on the combination 2 * Aux(1) keeps the raw
coefficients (2, 0, -1, 0) instead of the all-zero tuple that scaling by 0
would give. -/
theorem rewrite_lc_zero_multiplier_no_scaling :
    rewrite_lc (Transpiler.new ℤ) [(Variable.Aux 1, 2)] 0 0 =
      some ((Variable.Aux 1, TranspilationVariant.IntoSingleAdditionGate 2 0 (-1) 0),
        { Transpiler.new ℤ with current_plonk_aux_idx := 1 }) ∧
    TranspilationVariant.IntoSingleAdditionGate (2 : ℤ) 0 (-1) 0 ≠
      TranspilationVariant.IntoSingleAdditionGate 0 0 0 0 := by
  decide

/-- C5 amended: for every nonzero multiplier m, rewrite_lc(lc, m, f) is
rewrite_lc(lc, 1, 0) with every coefficient (chained extras included)
multiplied by m and the constant slot further reduced by f; for multiplier 0
(with free term 0) the coefficients are not scaled at all: the result
coincides with rewrite_lc(lc, 1, 0). -/
theorem rewrite_lc_scaling [Nontrivial F] (st : Transpiler F)
    (lc : LinearCombination F) (m f : F) :
    (m ≠ 0 → rewrite_lc st lc m f =
      (rewrite_lc st lc 1 0).map (fun r => ((r.1.1, scaleVariant m f r.1.2), r.2))) ∧
    rewrite_lc st lc 0 0 = rewrite_lc st lc 1 0 := by
  constructor
  · intro hm
    unfold rewrite_lc
    by_cases h1 : 0 < (num_unique_values lc st.scratch).1.2
    · simp only [if_pos h1]
      by_cases h2 : (num_unique_values lc st.scratch).1.2 ≤ 2
      · simp only [if_pos h2]
        cases hsg : rewrite_lc_into_single_addition_gate lc
            { st with scratch := (num_unique_values lc st.scratch).2 } with
        | none => rfl
        | some p =>
          obtain ⟨⟨nv, a, b, c, k⟩, st1⟩ := p
          by_cases hm1 : m = 1
          · subst hm1
            simp [hm, one_ne_zero, scaleVariant]
          · simp [hm, hm1, one_ne_zero, scaleVariant]
            refine ⟨by ring, by ring, by ring, by ring⟩
      · simp only [if_neg h2]
        cases hmg : rewrite_lc_into_multiple_addition_gates lc
            { st with scratch := (num_unique_values lc st.scratch).2 } with
        | none => rfl
        | some p =>
          obtain ⟨⟨nv, ⟨a, b, c, k⟩, extra⟩, st1⟩ := p
          by_cases hm1 : m = 1
          · subst hm1
            simp [hm, one_ne_zero, scaleVariant]
          · simp [hm, hm1, one_ne_zero, scaleVariant]
            refine ⟨by ring, by ring, by ring, by ring, ?_⟩
            exact fun x _ => mul_comm x m
    · simp only [if_neg h1]
      rfl
  · unfold rewrite_lc
    by_cases h1 : 0 < (num_unique_values lc st.scratch).1.2
    · simp only [if_pos h1]
      by_cases h2 : (num_unique_values lc st.scratch).1.2 ≤ 2
      · simp only [if_pos h2]
        cases hsg : rewrite_lc_into_single_addition_gate lc
            { st with scratch := (num_unique_values lc st.scratch).2 } with
        | none => rfl
        | some p =>
          obtain ⟨⟨nv, a, b, c, k⟩, st1⟩ := p
          simp [one_ne_zero]
      · simp only [if_neg h2]
        cases hmg : rewrite_lc_into_multiple_addition_gates lc
            { st with scratch := (num_unique_values lc st.scratch).2 } with
        | none => rfl
        | some p =>
          obtain ⟨⟨nv, ⟨a, b, c, k⟩, extra⟩, st1⟩ := p
          simp [one_ne_zero]
    · simp only [if_neg h1]

theorem rewrite_lc_scaling_witness :
    rewrite_lc (Transpiler.new ℤ) [(Variable.Aux 1, 2)] 3 5 =
      (rewrite_lc (Transpiler.new ℤ) [(Variable.Aux 1, 2)] 1 0).map
        (fun r => ((r.1.1, scaleVariant 3 5 r.1.2), r.2)) :=
  (rewrite_lc_scaling (Transpiler.new ℤ) [(Variable.Aux 1, 2)] 3 5).1 (by decide)

/-- is_linear_term empties the scratch set in both of its branches. -/
theorem is_linear_term_scratch (lc : LinearCombination F) (s : List Variable) :
    (is_linear_term lc s).2 = [] := by
  unfold is_linear_term
  dsimp only
  split <;> rfl

/-- is_quadratic_gate leaves an empty scratch set empty. -/
theorem is_quadratic_gate_scratch_empty (a b c : LinearCombination F) :
    (is_quadratic_gate a b c ([] : List Variable)).2 = [] := by
  unfold is_quadratic_gate
  dsimp only
  split
  · rfl
  · split
    · exact is_linear_term_scratch b _
    · exact is_linear_term_scratch b _

/-- C9: the two silent classifier branches.  When A and B are non-constant,
C is constant and the quadratic heuristic does not match, and when exactly
one of A, B is constant while C is not, enforce appends no hint and leaves
the whole transpiler state (hint stream, constraint counter, both variable
counters) unchanged. -/
theorem enforce_silent_branches_no_state_change (st : Transpiler F)
    (a b c : LinearCombination F) (hs : st.scratch = []) :
    ((is_constant a).1 = false → (is_constant b).1 = false →
      (is_constant c).1 = true →
      (is_quadratic_gate a b c ([] : List Variable)).1.1 = false →
      enforce st a b c = some st) ∧
    ((is_constant c).1 = false → (is_constant a).1 ≠ (is_constant b).1 →
      enforce st a b c = some st) := by
  obtain ⟨ci, ii, ai, sc, hi⟩ := st
  simp only at hs
  subst hs
  constructor
  · intro ha hb hc hq
    simp only [enforce, ha, hb, hc]
    simp [hq, is_quadratic_gate_scratch_empty]
  · intro hc hab
    cases ha : (is_constant a).1 <;> cases hb : (is_constant b).1
    · rw [ha, hb] at hab; exact absurd rfl hab
    · simp only [enforce, ha, hb, hc]
    · simp only [enforce, ha, hb, hc]
    · rw [ha, hb] at hab; exact absurd rfl hab

theorem enforce_silent_branches_no_state_change_witness :
    enforce (Transpiler.new ℤ)
      [(Variable.Aux 1, 1), (Variable.Aux 2, 1)]
      [(Variable.Aux 1, 1), (Variable.Aux 2, 1)] [(cs_one, 5)]
      = some (Transpiler.new ℤ) :=
  (enforce_silent_branches_no_state_change (Transpiler.new ℤ)
    [(Variable.Aux 1, 1), (Variable.Aux 2, 1)]
    [(Variable.Aux 1, 1), (Variable.Aux 2, 1)] [(cs_one, 5)] rfl).1
    (by decide) (by decide) (by decide) (by decide)

/-- multiRestLoop allocates variables only: it never touches the hint
stream or the constraint counter. -/
theorem multiRestLoop_frame (terms : List (Variable × F)) (st : Transpiler F)
    (e : List F) (nv : Variable) :
    (multiRestLoop terms st e nv).2.2.hints = st.hints ∧
    (multiRestLoop terms st e nv).2.2.current_constraint_index =
      st.current_constraint_index := by
  induction terms generalizing st e nv with
  | nil => exact ⟨rfl, rfl⟩
  | cons t rest ih =>
    obtain ⟨v, cv⟩ := t
    by_cases hv : v = cs_one
    · simpa [multiRestLoop, hv] using ih st e nv
    · simpa [multiRestLoop, hv, Transpiler.alloc] using
        ih { st with current_plonk_aux_idx := st.current_plonk_aux_idx + 1 }
          (e ++ [cv]) (Variable.Aux (st.current_plonk_aux_idx + 1))

/-- rewrite_lc_into_single_addition_gate only mints a variable and clears
the scratch set: hint stream and constraint counter are untouched. -/
theorem single_addition_gate_frame (lc : LinearCombination F) (st : Transpiler F)
    (p : Variable × (F × F × F × F)) (st' : Transpiler F)
    (h : rewrite_lc_into_single_addition_gate lc st = some (p, st')) :
    st'.hints = st.hints ∧
    st'.current_constraint_index = st.current_constraint_index := by
  unfold rewrite_lc_into_single_addition_gate at h
  dsimp only at h
  by_cases h1 : 0 < (num_unique_values lc st.scratch).1.2 ∧
      (num_unique_values lc st.scratch).1.2 ≤ 2
  · rw [if_pos h1] at h
    simp only [Option.some.injEq, Prod.mk.injEq] at h
    obtain ⟨-, rfl⟩ := h
    exact ⟨rfl, rfl⟩
  · rw [if_neg h1] at h
    exact absurd h (by simp)

/-- rewrite_lc_into_multiple_addition_gates likewise only mints variables. -/
theorem multiple_addition_gates_frame (lc : LinearCombination F) (st : Transpiler F)
    (p : Variable × (F × F × F × F) × List F) (st' : Transpiler F)
    (h : rewrite_lc_into_multiple_addition_gates lc st = some (p, st')) :
    st'.hints = st.hints ∧
    st'.current_constraint_index = st.current_constraint_index := by
  unfold rewrite_lc_into_multiple_addition_gates at h
  dsimp only at h
  by_cases h1 : 0 < (num_unique_values lc st.scratch).1.2 ∧
      (num_unique_values lc st.scratch).1.2 ≤ 2
  · rw [if_pos h1] at h
    by_cases h2 : 2 < lc.length
    · rw [if_pos h2] at h
      simp only [Option.some.injEq, Prod.mk.injEq] at h
      obtain ⟨-, rfl⟩ := h
      exact multiRestLoop_frame _ _ _ _
    · rw [if_neg h2] at h
      exact absurd h (by simp)
  · rw [if_neg h1] at h
    exact absurd h (by simp)

/-- rewrite_lc never touches the hint stream or the constraint counter. -/
theorem rewrite_lc_frame (st : Transpiler F) (lc : LinearCombination F) (m f : F)
    (r : Variable × TranspilationVariant F) (st' : Transpiler F)
    (h : rewrite_lc st lc m f = some (r, st')) :
    st'.hints = st.hints ∧
    st'.current_constraint_index = st.current_constraint_index := by
  unfold rewrite_lc at h
  dsimp only at h
  by_cases h1 : 0 < (num_unique_values lc st.scratch).1.2
  · rw [if_pos h1] at h
    by_cases h2 : (num_unique_values lc st.scratch).1.2 ≤ 2
    · rw [if_pos h2] at h
      cases heq : rewrite_lc_into_single_addition_gate lc
          { st with scratch := (num_unique_values lc st.scratch).2 } with
      | none =>
        rw [heq] at h
        exact absurd h (by simp)
      | some q =>
        obtain ⟨⟨nv, co⟩, st1⟩ := q
        rw [heq] at h
        dsimp only at h
        have hf := single_addition_gate_frame _ _ _ _ heq
        by_cases hm : m = 0
        · rw [if_pos hm] at h
          by_cases hff : f = 0
          · rw [if_pos hff] at h
            simp only [Option.some.injEq, Prod.mk.injEq] at h
            obtain ⟨-, rfl⟩ := h
            exact hf
          · rw [if_neg hff] at h
            exact absurd h (by simp)
        · rw [if_neg hm] at h
          simp only [Option.some.injEq, Prod.mk.injEq] at h
          obtain ⟨-, rfl⟩ := h
          exact hf
    · rw [if_neg h2] at h
      cases heq : rewrite_lc_into_multiple_addition_gates lc
          { st with scratch := (num_unique_values lc st.scratch).2 } with
      | none =>
        rw [heq] at h
        exact absurd h (by simp)
      | some q =>
        obtain ⟨⟨nv, co, extra⟩, st1⟩ := q
        rw [heq] at h
        dsimp only at h
        have hf := multiple_addition_gates_frame _ _ _ _ heq
        by_cases hm : m = 0
        · rw [if_pos hm] at h
          by_cases hff : f = 0
          · rw [if_pos hff] at h
            simp only [Option.some.injEq, Prod.mk.injEq] at h
            obtain ⟨-, rfl⟩ := h
            exact hf
          · rw [if_neg hff] at h
            exact absurd h (by simp)
        · rw [if_neg hm] at h
          simp only [Option.some.injEq, Prod.mk.injEq] at h
          obtain ⟨-, rfl⟩ := h
          exact hf
  · rw [if_neg h1] at h
    exact absurd h (by simp)

/-- Appending a hint carrying the current counter value and incrementing the
counter preserves the indexing invariant. -/
theorem hintIndicesOk_push (st : Transpiler F) (v : TranspilationVariant F)
    (hok : hintIndicesOk st) :
    hintIndicesOk { st with
      current_constraint_index := st.current_constraint_index + 1
      hints := st.hints ++ [(st.current_constraint_index, v)] } := by
  obtain ⟨h1, h2⟩ := hok
  constructor
  · simp [h1]
  · simp [List.range_succ, h1, h2]

/-- The invariant only depends on the hint stream and the counter. -/
theorem hintIndicesOk_of_fields (st st1 : Transpiler F)
    (hh : st1.hints = st.hints)
    (hi : st1.current_constraint_index = st.current_constraint_index)
    (hok : hintIndicesOk st) : hintIndicesOk st1 := by
  unfold hintIndicesOk at *
  rw [hh, hi]
  exact hok

/-- C10: the hint stream's indices are exactly 0, 1, 2, ... in push order.
The freshly created transpiler satisfies the indexing invariant, and every
successful enforce call preserves it: the counter is bumped exactly once per
appended hint, and the appended hint carries the pre-bump counter value. -/
theorem enforce_hint_indices_invariant (st st' : Transpiler F)
    (a b c : LinearCombination F) :
    hintIndicesOk (Transpiler.new F) ∧
    (hintIndicesOk st → enforce st a b c = some st' → hintIndicesOk st') := by
  refine ⟨⟨rfl, rfl⟩, fun hok h => ?_⟩
  unfold enforce at h
  dsimp only at h
  cases ha : (is_constant a).1 <;> cases hb : (is_constant b).1 <;>
    cases hc : (is_constant c).1 <;> rw [ha, hb, hc] at h <;> dsimp only at h
  · -- false, false, false
    cases heqa : rewrite_lc st a 1 0 with
    | none => rw [heqa] at h; exact absurd h (by simp)
    | some qa =>
      obtain ⟨ra, st1⟩ := qa
      rw [heqa] at h
      dsimp only at h
      cases heqb : rewrite_lc st1 b 1 0 with
      | none => rw [heqb] at h; exact absurd h (by simp)
      | some qb =>
        obtain ⟨rb, st2⟩ := qb
        rw [heqb] at h
        dsimp only at h
        cases heqc : rewrite_lc st2 c 1 0 with
        | none => rw [heqc] at h; exact absurd h (by simp)
        | some qc =>
          obtain ⟨rc, st3⟩ := qc
          rw [heqc] at h
          dsimp only at h
          simp only [Option.some.injEq] at h
          subst h
          have f1 := rewrite_lc_frame _ _ _ _ _ _ heqa
          have f2 := rewrite_lc_frame _ _ _ _ _ _ heqb
          have f3 := rewrite_lc_frame _ _ _ _ _ _ heqc
          exact hintIndicesOk_push st3 _ (hintIndicesOk_of_fields _ _
            (f3.1.trans (f2.1.trans f1.1))
            (f3.2.trans (f2.2.trans f1.2)) hok)
  · -- false, false, true : quadratic arm
    by_cases hq : (is_quadratic_gate a b c st.scratch).1.1 = true
    · rw [if_pos hq] at h
      simp only [Option.some.injEq] at h
      subst h
      exact hintIndicesOk_push _ _ (hintIndicesOk_of_fields _ _ rfl rfl hok)
    · rw [if_neg hq] at h
      simp only [Option.some.injEq] at h
      subst h
      exact hintIndicesOk_of_fields _ _ rfl rfl hok
  · -- false, true, false : no-op
    simp only [Option.some.injEq] at h
    subst h
    exact hok
  · -- false, true, true
    cases heqa : rewrite_lc st a (is_constant b).2 (is_constant c).2 with
    | none => rw [heqa] at h; exact absurd h (by simp)
    | some qa =>
      obtain ⟨ra, st1⟩ := qa
      rw [heqa] at h
      dsimp only at h
      simp only [Option.some.injEq] at h
      subst h
      have f1 := rewrite_lc_frame _ _ _ _ _ _ heqa
      exact hintIndicesOk_push st1 _ (hintIndicesOk_of_fields _ _ f1.1 f1.2 hok)
  · -- true, false, false : no-op
    simp only [Option.some.injEq] at h
    subst h
    exact hok
  · -- true, false, true
    cases heqb : rewrite_lc st b (is_constant a).2 (is_constant c).2 with
    | none => rw [heqb] at h; exact absurd h (by simp)
    | some qb =>
      obtain ⟨rb, st1⟩ := qb
      rw [heqb] at h
      dsimp only at h
      simp only [Option.some.injEq] at h
      subst h
      have f1 := rewrite_lc_frame _ _ _ _ _ _ heqb
      exact hintIndicesOk_push st1 _ (hintIndicesOk_of_fields _ _ f1.1 f1.2 hok)
  · -- true, true, false : missing arm
    exact absurd h (by simp)
  · -- true, true, true : fatal
    exact absurd h (by simp)

theorem enforce_hint_indices_invariant_witness :
    hintIndicesOk ((⟨1, 1, 1, [],
      [(0, TranspilationVariant.IntoSingleAdditionGate (2 : ℤ) 0 (-2) (-3))]⟩ :
        Transpiler ℤ)) :=
  (enforce_hint_indices_invariant (Transpiler.new ℤ) _
    [(cs_one, 2)] [(Variable.Aux 7, 1)] [(cs_one, 3)]).2 ⟨rfl, rfl⟩ (by decide)

/-- C4: on factors a1 v + a0 and b1 v + b0 over one shared non-One variable,
each with a One term, and a constant C, the heuristic succeeds with
coefficients (a0 b0 - C, a1 b0 + a0 b1, a1 b1); and whenever it reports
true, C was constant, both factors carried a constant term, both were linear
in exactly one distinct variable, and the two variables coincide (so any
other shape yields false). -/
theorem is_quadratic_gate_spec (v : Variable) (a1 a0 b1 b0 cc : F)
    (hv : v ≠ cs_one) :
    is_quadratic_gate [(v, a1), (cs_one, a0)] [(v, b1), (cs_one, b0)] [(cs_one, cc)]
        ([] : List Variable) =
      ((true, (a0 * b0 - cc, a1 * b0 + a0 * b1, a1 * b1)), []) ∧
    (∀ (a b c : LinearCombination F),
      (is_quadratic_gate a b c ([] : List Variable)).1.1 = true →
      (is_constant c).1 = true ∧ (get_constant_term a).1 = true ∧
      (get_constant_term b).1 = true ∧
      (is_linear_term a ([] : List Variable)).1.1 = true ∧
      (is_linear_term b ([] : List Variable)).1.1 = true ∧
      (is_linear_term a ([] : List Variable)).1.2.1 =
        (is_linear_term b ([] : List Variable)).1.2.1) := by
  constructor
  · have hca : get_constant_term ([(v, a1), (cs_one, a0)] : LinearCombination F)
        = (true, a0) := by
      simp [get_constant_term, hv]
    have hcb : get_constant_term ([(v, b1), (cs_one, b0)] : LinearCombination F)
        = (true, b0) := by
      simp [get_constant_term, hv]
    have hla : is_linear_term ([(v, a1), (cs_one, a0)] : LinearCombination F)
        ([] : List Variable) = ((true, v, a1), []) := by
      simp [is_linear_term, linearLoop, insertScratch, hv]
    have hlb : is_linear_term ([(v, b1), (cs_one, b0)] : LinearCombination F)
        ([] : List Variable) = ((true, v, b1), []) := by
      simp [is_linear_term, linearLoop, insertScratch, hv]
    have hcon : is_constant ([(cs_one, cc)] : LinearCombination F) = (true, cc) := rfl
    unfold is_quadratic_gate
    rw [hcon]
    dsimp only
    rw [hca, hcb, hla, hlb]
    dsimp only
    by_cases hcc : cc = 0
    · subst hcc
      simp
      ring
    · simp [hcc]
      ring
  · intro a b c h
    unfold is_quadratic_gate at h
    dsimp only at h
    rw [is_linear_term_scratch a] at h
    by_cases hc : (is_constant c).1 = false
    · rw [if_pos hc] at h
      exact absurd h (by simp)
    · rw [if_neg hc] at h
      simp only [Bool.not_eq_false] at hc
      by_cases hcond : (get_constant_term a).1 = true ∧
          (is_linear_term a ([] : List Variable)).1.1 = true ∧
          (get_constant_term b).1 = true ∧
          (is_linear_term b ([] : List Variable)).1.1 = true ∧
          (is_linear_term a ([] : List Variable)).1.2.1 =
            (is_linear_term b ([] : List Variable)).1.2.1
      · obtain ⟨p1, p2, p3, p4, p5⟩ := hcond
        exact ⟨hc, p1, p3, p2, p4, p5⟩
      · rw [if_neg hcond] at h
        exact absurd h (by simp)

theorem is_quadratic_gate_spec_witness :
    is_quadratic_gate [(Variable.Aux 1, (1 : ℤ)), (cs_one, -1)]
      [(Variable.Aux 1, (1 : ℤ)), (cs_one, -1)] [(cs_one, (0 : ℤ))]
      ([] : List Variable) = ((true, (1, -2, 1)), []) :=
  ((is_quadratic_gate_spec (Variable.Aux 1) 1 (-1) 1 (-1) 0 (by decide)).1).trans
    (by decide)

/-- The scratch set built by numUniqueLoop is the fold of insertScratch over
the non-One variables. -/
theorem numUniqueLoop_scratch (terms : List (Variable × F)) (cc : Bool)
    (s : List Variable) :
    (numUniqueLoop terms cc s).2 = (nonOneVars terms).foldl insertScratch s := by
  induction terms generalizing cc s with
  | nil => rfl
  | cons t rest ih =>
    obtain ⟨v, cv⟩ := t
    by_cases hv : v = cs_one
    · simp [numUniqueLoop, nonOneVars, hv, ih]
    · simp [numUniqueLoop, nonOneVars, hv, ih]

/-- Inserting pairwise-distinct fresh variables grows the scratch set by one
each time. -/
theorem foldl_insertScratch_length (l : List Variable) (s : List Variable)
    (hnd : l.Nodup) (hdis : ∀ x ∈ l, x ∉ s) :
    (l.foldl insertScratch s).length = s.length + l.length := by
  induction l generalizing s with
  | nil => simp
  | cons v l ih =>
    have hv : v ∉ s := hdis v (List.mem_cons_self v l)
    rw [List.foldl_cons]
    have hins : insertScratch s v = v :: s := if_neg hv
    rw [hins]
    have hvl : v ∉ l := (List.nodup_cons.mp hnd).1
    rw [ih (v :: s) (List.nodup_cons.mp hnd).2]
    · simp
      omega
    · intro x hx
      simp only [List.mem_cons, not_or]
      exact ⟨fun hxv => hvl (hxv ▸ hx), hdis x (List.mem_cons_of_mem v hx)⟩

/-- For a duplicate-free combination, num_unique_values counts exactly the
non-One terms. -/
theorem num_unique_values_count (lc : LinearCombination F)
    (h : (lc.map Prod.fst).Nodup) :
    (num_unique_values lc ([] : List Variable)).1.2 = (nonOneVars lc).length := by
  have hsubl : List.Sublist (nonOneVars lc) (lc.map Prod.fst) :=
    (List.filter_sublist lc).map Prod.fst
  have hsub : (nonOneVars lc).Nodup := h.sublist hsubl
  unfold num_unique_values
  dsimp only
  rw [numUniqueLoop_scratch]
  rw [foldl_insertScratch_length _ _ hsub (by simp)]
  simp

/-- oneCoeffs on a leading One term collects its coefficient. -/
theorem oneCoeffs_cons_one (cv : F) (rest : List (Variable × F)) :
    oneCoeffs ((cs_one, cv) :: rest) = cv :: oneCoeffs rest := by
  simp [oneCoeffs]

/-- oneCoeffs skips a leading non-One term. -/
theorem oneCoeffs_cons_ne (v : Variable) (cv : F) (rest : List (Variable × F))
    (hv : v ≠ cs_one) : oneCoeffs ((v, cv) :: rest) = oneCoeffs rest := by
  simp [oneCoeffs, hv]

/-- nonOneCoeffs skips a leading One term. -/
theorem nonOneCoeffs_cons_one (cv : F) (rest : List (Variable × F)) :
    nonOneCoeffs ((cs_one, cv) :: rest) = nonOneCoeffs rest := by
  simp [nonOneCoeffs]

/-- nonOneCoeffs collects the coefficient of a leading non-One term. -/
theorem nonOneCoeffs_cons_ne (v : Variable) (cv : F) (rest : List (Variable × F))
    (hv : v ≠ cs_one) : nonOneCoeffs ((v, cv) :: rest) = cv :: nonOneCoeffs rest := by
  simp [nonOneCoeffs, hv]

/-- Full characterisation of the single-addition-gate extraction loop. -/
theorem singleGateLoop_eq (terms : List (Variable × F)) (k : F) (fa : Bool) (a b : F) :
    singleGateLoop terms k fa a b =
      ((oneCoeffs terms).getLastD k,
       fa || !(nonOneCoeffs terms).isEmpty,
       if fa = true then a else (nonOneCoeffs terms).headD a,
       if fa = true then (nonOneCoeffs terms).getLastD b
       else ((nonOneCoeffs terms).drop 1).getLastD b) := by
  induction terms generalizing k fa a b with
  | nil => cases fa <;> rfl
  | cons t rest ih =>
    obtain ⟨v, cv⟩ := t
    by_cases hv : v = cs_one
    · subst hv
      show singleGateLoop rest cv fa a b = _
      rw [ih, oneCoeffs_cons_one, nonOneCoeffs_cons_one, List.getLastD_cons]
    · cases fa
      · simp only [singleGateLoop]
        rw [if_neg hv]
        show singleGateLoop rest k true cv b = _
        rw [ih, oneCoeffs_cons_ne v cv rest hv, nonOneCoeffs_cons_ne v cv rest hv]
        rfl
      · simp only [singleGateLoop]
        rw [if_neg hv]
        show singleGateLoop rest k true a cv = _
        rw [ih, oneCoeffs_cons_ne v cv rest hv, nonOneCoeffs_cons_ne v cv rest hv,
          List.getLastD_cons]
        rfl

/-- For lists of at most two entries, the last entry after dropping the head
is the entry at position 1. -/
theorem drop_one_getLastD (l : List F) (hl : l.length ≤ 2) :
    (l.drop 1).getLastD 0 = l.getD 1 0 := by
  cases l with
  | nil => rfl
  | cons x t =>
    cases t with
    | nil => rfl
    | cons y t2 =>
      cases t2 with
      | nil => rfl
      | cons z t3 => simp at hl

/-- C6: on a duplicate-free combination with one or two non-One terms, the
single-gate rewriter mints exactly one auxiliary variable and returns it
with coefficients (first non-One coefficient, second non-One coefficient or
0, -1, coefficient of the One term or 0); the rest of the state is
untouched and the scratch set ends empty. -/
theorem rewrite_single_addition_gate_spec (st : Transpiler F)
    (lc : LinearCombination F) (hs : st.scratch = [])
    (hnd : (lc.map Prod.fst).Nodup)
    (h1 : 1 ≤ (nonOneVars lc).length) (h2 : (nonOneVars lc).length ≤ 2) :
    rewrite_lc_into_single_addition_gate lc st =
      some ((Variable.Aux (st.current_plonk_aux_idx + 1),
        ((nonOneCoeffs lc).headD 0, (nonOneCoeffs lc).getD 1 0, -1, oneCoeff lc)),
        { st with
          current_plonk_aux_idx := st.current_plonk_aux_idx + 1
          scratch := [] }) := by
  have hcount : (num_unique_values lc ([] : List Variable)).1.2 =
      (nonOneVars lc).length := num_unique_values_count lc hnd
  have hlen : (nonOneCoeffs lc).length = (nonOneVars lc).length := by
    simp [nonOneCoeffs, nonOneVars]
  unfold rewrite_lc_into_single_addition_gate
  dsimp only
  rw [hs]
  rw [if_pos (by rw [hcount]; omega)]
  rw [singleGateLoop_eq]
  dsimp only [Transpiler.alloc]
  rw [drop_one_getLastD _ (by omega)]
  simp [oneCoeff, num_unique_values]

theorem rewrite_single_addition_gate_spec_witness :
    rewrite_lc_into_single_addition_gate
      [(Variable.Aux 1, (2 : ℤ)), (cs_one, 5), (Variable.Aux 2, 3)]
      (Transpiler.new ℤ) =
      some ((Variable.Aux 1, (2, 3, -1, 5)),
        { Transpiler.new ℤ with current_plonk_aux_idx := 1, scratch := [] }) :=
  (rewrite_single_addition_gate_spec (Transpiler.new ℤ)
    [(Variable.Aux 1, (2 : ℤ)), (cs_one, 5), (Variable.Aux 2, 3)]
    rfl (by decide) (by decide) (by decide)).trans (by decide)

end PlonkAdaptor
